import Mathlib

/-!
Verification of the SP-1200 emulation repository.

Part 1: shallow embedding of the bitcrusher AudioWorklet processor
(src/public/worklets/bitcrusher.js).  Audio samples are modelled as
rationals (the JS engine computes on binary floats; the algorithm is
exact on the dyadic inputs used in the scenarios).  The k-rate
`bitDepth` parameter is modelled at integral values (the code computes
`Math.pow(2, bitDepth)`, which is rational only for integral
exponents); every claim under verification uses integral bit depths.

Part 2: shallow embedding of the audio engine controller
(`AudioEngine` in the repository's TypeScript source).  Platform
services (audio-data decoding, AudioContext construction, worklet
module loading) are modelled abstractly: decoding is a parameter
`decode : Bytes → Option Sample`, and the fallible steps of `init`
are driven by an `InitEnv` describing which platform call fails.
-/

namespace SP1200

/-- Processor state of `BitcrusherProcessor`: the held (quantized) sample
`_lastSample` and the decimation counter `_sampleCounter`.  The constructor
initializes both to zero.  Note the source keeps ONE such state per processor
instance, shared by all channels. -/
structure CrusherState where
  lastSample : ℚ
  sampleCounter : ℕ
deriving DecidableEq, Repr

/-- Initial processor state from the constructor: `_lastSample = 0`,
`_sampleCounter = 0`. -/
def initCrusher : CrusherState := ⟨0, 0⟩

/-- Quantization step for a given (integral) bit depth:
`levels = Math.pow(2, bitDepth)`, `step = 2 / levels`. -/
def stepOf (bitDepth : ℕ) : ℚ := 2 / 2 ^ bitDepth

/-- Raw quantization from the source:
`Math.floor((x + 1) / step) * step - 1`. -/
def quantize (step x : ℚ) : ℚ := (⌊(x + 1) / step⌋ : ℚ) * step - 1

/-- Clamp to the valid sample range, from the source:
`Math.max(-1, Math.min(1, v))`. -/
def clampSample (v : ℚ) : ℚ := max (-1) (min 1 v)

/-- One iteration of the inner sample loop of `BitcrusherProcessor.process`:
increment `_sampleCounter`; if it reached `reduction`, reset it and recompute
`_lastSample` as the clamped quantization of the input sample; output
`x * (1 - mix) + _lastSample * mix`. -/
def processSample (step : ℚ) (reduction : ℕ) (mix : ℚ) (s : CrusherState)
    (x : ℚ) : CrusherState × ℚ :=
  let c := s.sampleCounter + 1
  if reduction ≤ c then
    let held := clampSample (quantize step x)
    (⟨held, 0⟩, x * (1 - mix) + held * mix)
  else
    (⟨s.lastSample, c⟩, x * (1 - mix) + s.lastSample * mix)

/-- The per-channel sample loop of `process`: threads the processor state
through the samples of one channel, collecting the output samples. -/
def processChannel (step : ℚ) (reduction : ℕ) (mix : ℚ) :
    CrusherState → List ℚ → CrusherState × List ℚ
  | s, [] => (s, [])
  | s, x :: xs =>
    let r := processSample step reduction mix s x
    let rest := processChannel step reduction mix r.1 xs
    (rest.1, r.2 :: rest.2)

/-- The channel loop of `process`: one entry per output channel, holding the
matching input channel when it exists.  A missing input channel
(`if (!inputChannel) continue`) leaves that output channel zero-filled (the
host zero-initializes output buffers) and does not touch the state. -/
def processChannels (step : ℚ) (reduction : ℕ) (mix : ℚ) (blockSize : ℕ) :
    CrusherState → List (Option (List ℚ)) → CrusherState × List (List ℚ)
  | s, [] => (s, [])
  | s, none :: rest =>
    let r := processChannels step reduction mix blockSize s rest
    (r.1, List.replicate blockSize 0 :: r.2)
  | s, some ch :: rest =>
    let r := processChannel step reduction mix s ch
    let r2 := processChannels step reduction mix blockSize r.1 rest
    (r2.1, r.2 :: r2.2)

/-- Input channels seen by the channel loop: for each of the `numOut` output
channels, `input[channel]`, which is absent when the input carries fewer
channels. -/
def channelSlots (chans : List (List ℚ)) (numOut : ℕ) :
    List (Option (List ℚ)) :=
  (List.range numOut).map (fun i => chans.get? i)

/-- Top level of `BitcrusherProcessor.process`.  `input = inputs[0]` may be
absent or empty (`if (!input || !input.length) return true`), in which case
nothing is written and the host-zeroed output block is returned unchanged.
The reduction parameter is floored (`Math.floor(parameters.reduction[0])`).
The function is total: no execution path raises an error. -/
def process (bitDepth : ℕ) (reductionParam mix : ℚ)
    (input : Option (List (List ℚ))) (numOut blockSize : ℕ)
    (s : CrusherState) : CrusherState × List (List ℚ) :=
  match input with
  | none => (s, List.replicate numOut (List.replicate blockSize 0))
  | some chans =>
    if chans.length = 0 then
      (s, List.replicate numOut (List.replicate blockSize 0))
    else
      processChannels (stepOf bitDepth) (Int.toNat ⌊reductionParam⌋) mix
        blockSize s (channelSlots chans numOut)

/-- Modelled from the claim text (C1), word for word: `levels = 2^bitDepth`
and `step = 2/levels`; increment the per-sample counter; when
`counter >= reductionFactor`, reset the counter to 0 and recompute
`heldSample = clamp(floor((x + 1) / step) * step - 1, -1, 1)`, otherwise
reuse the previous `heldSample` unchanged; output
`y = x * (1 - mix) + heldSample * mix`. -/
def claimSampleStep (bitDepth reductionFactor : ℕ) (mix : ℚ)
    (counter : ℕ) (heldPrev x : ℚ) : (ℕ × ℚ) × ℚ :=
  let levels : ℚ := 2 ^ bitDepth
  let step : ℚ := 2 / levels
  let counterNew := counter + 1
  if counterNew ≥ reductionFactor then
    let held := max (-1) (min 1 ((⌊(x + 1) / step⌋ : ℚ) * step - 1))
    ((0, held), x * (1 - mix) + held * mix)
  else
    ((counterNew, heldPrev), x * (1 - mix) + heldPrev * mix)

/-- Modelled from the claim text (C1): the per-channel loop driven by
`claimSampleStep`, carrying the `(counter, heldSample)` pair. -/
def claimChannel (bitDepth reductionFactor : ℕ) (mix : ℚ) :
    ℕ × ℚ → List ℚ → (ℕ × ℚ) × List ℚ
  | st, [] => (st, [])
  | st, x :: xs =>
    let r := claimSampleStep bitDepth reductionFactor mix st.1 st.2 x
    let rest := claimChannel bitDepth reductionFactor mix r.1 xs
    (rest.1, r.2 :: rest.2)

/-- Trace of the held sample: the value of `_lastSample` right after each
sample of a channel is processed. -/
def heldTrace (step : ℚ) (reduction : ℕ) (mix : ℚ) :
    CrusherState → List ℚ → List ℚ
  | _, [] => []
  | s, x :: xs =>
    let r := processSample step reduction mix s x
    r.1.lastSample :: heldTrace step reduction mix r.1 xs

/-- Index `i` is a change point of the sequence `l`: the value at `i`
differs from the value at `i - 1`. -/
def changeIdx (l : List ℚ) (i : ℕ) : Prop :=
  0 < i ∧ i < l.length ∧ l.getD i 0 ≠ l.getD (i - 1) 0

/-- The sequence `l` changes at most once every `r` samples: two distinct
change points are at least `r` apart. -/
def holdsEvery (r : ℕ) (l : List ℚ) : Prop :=
  ∀ i j, changeIdx l i → changeIdx l j → i < j → r ≤ j - i

/-- Concrete stereo run refuting the per-channel hold guarantee: three
consecutive one-frame stereo blocks (both channels fed the same signal
-1/2, 1/2, -1/2) through the processor with `bitDepth = 1`,
`reduction = 2`, `mix = 1`, collecting the channel-1 output across the
three blocks. -/
def c2RunOutputs : List ℚ :=
  let r1 := process 1 2 1 (some [[-1/2], [-1/2]]) 2 1 initCrusher
  let r2 := process 1 2 1 (some [[1/2], [1/2]]) 2 1 r1.1
  let r3 := process 1 2 1 (some [[-1/2], [-1/2]]) 2 1 r2.1
  r1.2.getD 1 [] ++ r2.2.getD 1 [] ++ r3.2.getD 1 []

/-- Input ramp from -1 to 1 over 8 samples: uniform steps of `2/8`,
starting at -1. -/
def ramp8 : List ℚ := [-1, -3/4, -1/2, -1/4, 0, 1/4, 1/2, 3/4]

/-- Scenario run for the bit-depth-1 claim: `reduction = 4`, `bitDepth = 1`,
`mix = 1` on the 8-sample ramp, mono, taken through the full `process`
entry point. -/
def c3Out : List ℚ :=
  (process 1 4 1 (some [ramp8]) 1 8 initCrusher).2.getD 0 []

/-- Membership in the quantization grid of a given bit depth: one of the
`levels + 1` uniform points `k * step - 1` for `0 ≤ k ≤ levels`,
`levels = 2 ^ bitDepth`. -/
def onGrid (bitDepth : ℕ) (y : ℚ) : Prop :=
  ∃ k : ℕ, k ≤ 2 ^ bitDepth ∧ y = k * stepOf bitDepth - 1

/-- Raw audio bytes handed to `loadSample` (the content of a dropped
file). -/
abbrev Bytes := List ℕ

/-- A decoded audio buffer (`AudioBuffer`), abstracted to its payload. -/
abbrev Sample := List ℕ

/-- The `AudioEngineState` record of the engine controller. -/
structure EngineParams where
  masterVolume : ℚ
  bitDepth : ℚ
  reduction : ℚ
  mix : ℚ
deriving DecidableEq, Repr

/-- Initial engine state from the source:
`{ masterVolume: 0.8, bitDepth: 12, reduction: 1, mix: 1 }`. -/
def initialParams : EngineParams := ⟨8/10, 12, 1, 1⟩

/-- A `Partial AudioEngineState` argument to `setState`: each field is
either supplied or absent. -/
structure PartialParams where
  masterVolume : Option ℚ
  bitDepth : Option ℚ
  reduction : Option ℚ
  mix : Option ℚ
deriving DecidableEq, Repr

/-- The engine controller's mutable state: whether the `AudioContext`
(`ctx`), the bitcrusher `AudioWorkletNode` and the master `GainNode` exist,
the pad-slot sample bindings (`samples : Map<number, AudioBuffer>`), the
`isInitialized` flag, and the parameter record. -/
structure Engine where
  hasCtx : Bool
  hasNode : Bool
  hasGain : Bool
  samples : ℕ → Option Sample
  isInitialized : Bool
  params : EngineParams

/-- The engine as constructed: nothing created, no samples bound,
uninitialized, default parameters. -/
def freshEngine : Engine := ⟨false, false, false, fun _ => none, false,
  initialParams⟩

/-- `Map.set` on the pad-slot bindings. -/
def samplesSet (m : ℕ → Option Sample) (k : ℕ) (v : Sample) :
    ℕ → Option Sample :=
  fun q => if q = k then some v else m q

/-- The errors the engine controller can surface to the control context. -/
inductive EngineError where
  | initFailure
  | notInitialized
  | decodeFailure
deriving DecidableEq, Repr

/-- Which platform call of `init` fails, if any: the `AudioContext`
constructor, or `audioWorklet.addModule` (the fallible asynchronous steps;
on the success path every construction succeeds). -/
inductive InitEnv where
  | ok
  | ctxFail
  | moduleFail
deriving DecidableEq, Repr

/-- The `init` method: if already initialized, resume and return; otherwise
create the context, load the worklet module, create the nodes, connect,
apply state and set `isInitialized` — rethrowing on failure.  A context
construction failure leaves everything unset; an `addModule` failure occurs
after `this.ctx` has already been assigned. -/
def init (env : InitEnv) (e : Engine) : Engine × Option EngineError :=
  if e.isInitialized then (e, none)
  else
    match env with
    | .ctxFail => (e, some .initFailure)
    | .moduleFail => ({ e with hasCtx := true }, some .initFailure)
    | .ok =>
      ({ e with
          hasCtx := true
          hasNode := true
          hasGain := true
          isInitialized := true }, none)

/-- The `loadSample` method: throws when `this.ctx` is null; otherwise
decodes the bytes — rethrowing the decode failure — and on success binds the
decoded buffer to the pad slot. -/
def loadSample (decode : Bytes → Option Sample) (pad : ℕ) (bytes : Bytes)
    (e : Engine) : Engine × Option EngineError :=
  if e.hasCtx = false then (e, some .notInitialized)
  else
    match decode bytes with
    | none => (e, some .decodeFailure)
    | some buf => ({ e with samples := samplesSet e.samples pad buf }, none)

/-- The `triggerPad` method: returns silently when `ctx` or the bitcrusher
node is missing, or when the slot has no bound sample; otherwise creates a
one-shot buffer source over the bound sample (the returned voice).  It never
throws and mutates no engine field. -/
def triggerPad (pad : ℕ) (e : Engine) : Engine × Option Sample :=
  if e.hasCtx && e.hasNode then
    match e.samples pad with
    | none => (e, none)
    | some buf => (e, some buf)
  else (e, none)

/-- The `setState` method's state update: `{ ...this.state, ...newState }` —
supplied fields override, absent fields keep their previous value.  No
clamping is applied anywhere. -/
def setState (p : PartialParams) (e : Engine) : Engine :=
  { e with params :=
    { masterVolume := p.masterVolume.getD e.params.masterVolume
      bitDepth := p.bitDepth.getD e.params.bitDepth
      reduction := p.reduction.getD e.params.reduction
      mix := p.mix.getD e.params.mix } }

/-- The `getState` method: a snapshot of the stored parameter record. -/
def getState (e : Engine) : EngineParams := e.params

/-- The linear-ramp target values scheduled on the audio nodes. -/
structure RampTargets where
  masterVolume : ℚ
  bitDepth : ℚ
  reduction : ℚ
  mix : ℚ
deriving DecidableEq, Repr

/-- The `applyState` method: returns early when `ctx`, the bitcrusher node
or the master gain is missing; otherwise ramps every parameter linearly to
the currently stored value over the 20 ms smoothing window.  Modelled by
its observable effect: the target values scheduled. -/
def applyState (e : Engine) : Option RampTargets :=
  if e.hasCtx && e.hasNode && e.hasGain then
    some ⟨e.params.masterVolume, e.params.bitDepth, e.params.reduction,
      e.params.mix⟩
  else none

/-- An AudioParam descriptor of the worklet: default, minimum and maximum
value. -/
structure ParamDescriptor where
  defaultValue : ℚ
  minValue : ℚ
  maxValue : ℚ
deriving DecidableEq, Repr

/-- The `bitDepth` descriptor from `parameterDescriptors`. -/
def bitDepthParamDesc : ParamDescriptor := ⟨12, 1, 16⟩

/-- The `reduction` descriptor from `parameterDescriptors`. -/
def reductionParamDesc : ParamDescriptor := ⟨1, 1, 32⟩

/-- The `mix` descriptor from `parameterDescriptors`. -/
def mixParamDesc : ParamDescriptor := ⟨1, 0, 1⟩

/-- A control-context command addressed to the engine controller. -/
inductive EngineOp where
  | initOp (env : InitEnv)
  | loadOp (pad : ℕ) (bytes : Bytes)
  | trigOp (pad : ℕ)
  | setOp (p : PartialParams)

/-- Effect of one command on the engine state. -/
def runOp (decode : Bytes → Option Sample) (e : Engine) :
    EngineOp → Engine
  | .initOp env => (init env e).1
  | .loadOp pad bytes => (loadSample decode pad bytes e).1
  | .trigOp pad => (triggerPad pad e).1
  | .setOp p => setState p e

/-- The engine state reached from construction by a sequence of commands:
exactly the states reachable through the control API. -/
def run (decode : Bytes → Option Sample) (ops : List EngineOp) : Engine :=
  ops.foldl (runOp decode) freshEngine

/-- A concrete decoder for witnesses: empty byte strings are invalid audio
data, any other byte string decodes to itself. -/
def decode0 : Bytes → Option Sample :=
  fun b => if b.isEmpty then none else some b

/-- An engine whose initialization succeeded. -/
def readyEngine : Engine := (init .ok freshEngine).1

/-- A partial state carrying only an out-of-range bit depth. -/
def overLimit : PartialParams := ⟨none, some 100, none, none⟩

/-- A partial state carrying only a bit depth. -/
def bitOnly : PartialParams := ⟨none, some 7, none, none⟩

/-- The engine state reached through the control API when `init` fails at
worklet-module loading: the `AudioContext` exists but the engine is not
initialized. -/
def moduleFailEngine : Engine :=
  run decode0 [EngineOp.initOp InitEnv.moduleFail]

end SP1200

namespace SP1200

theorem processSample_eq_claim (bitDepth reductionFactor : ℕ) (mix : ℚ)
    (s : CrusherState) (x : ℚ) :
    processSample (stepOf bitDepth) reductionFactor mix s x =
      (⟨(claimSampleStep bitDepth reductionFactor mix s.sampleCounter
          s.lastSample x).1.2,
        (claimSampleStep bitDepth reductionFactor mix s.sampleCounter
          s.lastSample x).1.1⟩,
       (claimSampleStep bitDepth reductionFactor mix s.sampleCounter
          s.lastSample x).2) := by
  unfold processSample claimSampleStep stepOf quantize clampSample
  by_cases h : reductionFactor ≤ s.sampleCounter + 1 <;>
    simp [h, ge_iff_le]

/-- C1.  For every block of input samples processed with k-rate parameters
`bitDepth`, `reductionFactor` and `mix`, the processor computes each output
sample `y` from input sample `x` exactly as the specification states:
`levels = 2^bitDepth`, `step = 2/levels`; the per-sample counter is
incremented and, when it reaches `reductionFactor`, reset to 0 with
`heldSample` recomputed as `clamp(floor((x + 1) / step) * step - 1, -1, 1)`,
otherwise the previous `heldSample` is reused; and
`y = x * (1 - mix) + heldSample * mix`.  Stated as: the source-derived
channel loop coincides, on every state and sample list, with the loop
driven by the claim's formula. -/
theorem C1_process_follows_claim_formula (bitDepth reductionFactor : ℕ)
    (mix : ℚ) (s : CrusherState) (xs : List ℚ) :
    processChannel (stepOf bitDepth) reductionFactor mix s xs =
      (⟨(claimChannel bitDepth reductionFactor mix
          (s.sampleCounter, s.lastSample) xs).1.2,
        (claimChannel bitDepth reductionFactor mix
          (s.sampleCounter, s.lastSample) xs).1.1⟩,
       (claimChannel bitDepth reductionFactor mix
          (s.sampleCounter, s.lastSample) xs).2) := by
  induction xs generalizing s with
  | nil => simp [processChannel, claimChannel]
  | cons x xs ih =>
    simp only [processChannel, claimChannel]
    rw [processSample_eq_claim]
    rw [ih]

theorem heldTrace_length (step : ℚ) (r : ℕ) (mix : ℚ) :
    ∀ (xs : List ℚ) (s : CrusherState),
      (heldTrace step r mix s xs).length = xs.length := by
  intro xs
  induction xs with
  | nil => intro s; rfl
  | cons x xs ih => intro s; simp [heldTrace, ih]

theorem counter_lt_after (step : ℚ) (r : ℕ) (mix : ℚ) (hr : 1 ≤ r)
    (s : CrusherState) (x : ℚ) (hc : s.sampleCounter < r) :
    (processSample step r mix s x).1.sampleCounter < r ∧
      (processSample step r mix s x).1.sampleCounter % r =
        (s.sampleCounter + 1) % r := by
  unfold processSample
  by_cases h : r ≤ s.sampleCounter + 1
  · have he : s.sampleCounter + 1 = r := by omega
    simp [h, he, Nat.mod_self]
    omega
  · simp [h]
    omega

theorem heldTrace_stable (step : ℚ) (r : ℕ) (mix : ℚ) (hr : 1 ≤ r) :
    ∀ (xs : List ℚ) (s : CrusherState) (i : ℕ),
      s.sampleCounter < r → i < xs.length →
      (s.sampleCounter + i + 1) % r ≠ 0 →
      (heldTrace step r mix s xs).getD i 0 =
        (if i = 0 then s.lastSample
         else (heldTrace step r mix s xs).getD (i - 1) 0) := by
  intro xs
  induction xs with
  | nil => intro s i _ hi; simp at hi
  | cons x xs ih =>
    intro s i hc hi hmod
    match i with
    | 0 =>
      simp only [heldTrace, List.getD_cons_zero, if_pos rfl]
      unfold processSample
      have h : ¬ r ≤ s.sampleCounter + 1 := by
        intro hle
        have he : s.sampleCounter + 1 = r := by omega
        rw [Nat.add_zero, he, Nat.mod_self] at hmod
        exact hmod rfl
      simp [h]
    | k + 1 =>
      have hcnt := counter_lt_after step r mix hr s x hc
      have hmod2 : ((processSample step r mix s x).1.sampleCounter + k + 1)
          % r ≠ 0 := by
        have : ((processSample step r mix s x).1.sampleCounter + (k + 1)) % r
            = ((s.sampleCounter + 1) + (k + 1)) % r := by
          rw [Nat.add_mod, hcnt.2, ← Nat.add_mod]
        rw [Nat.add_assoc, this]
        have harr : s.sampleCounter + 1 + (k + 1) =
            s.sampleCounter + (k + 1) + 1 := by omega
        rw [harr]
        exact hmod
      have hik : k < xs.length := by
        simp at hi; omega
      have hrec := ih (processSample step r mix s x).1 k hcnt.1 hik hmod2
      simp only [heldTrace, List.getD_cons_succ, Nat.add_sub_cancel]
      rw [hrec]
      match k with
      | 0 => simp
      | m + 1 => simp

theorem processChannel_append (step : ℚ) (r : ℕ) (mix : ℚ) :
    ∀ (xs ys : List ℚ) (s : CrusherState),
      processChannel step r mix s (xs ++ ys) =
        ((processChannel step r mix
            (processChannel step r mix s xs).1 ys).1,
         (processChannel step r mix s xs).2 ++
           (processChannel step r mix
             (processChannel step r mix s xs).1 ys).2) := by
  intro xs
  induction xs with
  | nil => intro ys s; simp [processChannel]
  | cons x xs ih =>
    intro ys s
    simp only [List.cons_append, processChannel, List.append_eq]
    rw [ih]

theorem output_eq_held_of_wet (step : ℚ) (r : ℕ) :
    ∀ (xs : List ℚ) (s : CrusherState),
      (processChannel step r 1 s xs).2 = heldTrace step r 1 s xs := by
  intro xs
  induction xs with
  | nil => intro s; rfl
  | cons x xs ih =>
    intro s
    simp only [processChannel, heldTrace, ih]
    unfold processSample
    by_cases h : r ≤ s.sampleCounter + 1 <;> simp [h]

/-- C2 (amended).  The decimation state `(counter, heldSample)` is a single
pair per processor instance — shared by all channels — and persists across
block boundaries: processing two consecutive blocks equals processing their
concatenation.  Consequently, for a single-channel stream and every
`reductionFactor ≥ 1`, the held output (which is exactly the processor
output at `mix = 1`) changes at most once every `reductionFactor` input
samples, including when those samples span two consecutive blocks. -/
theorem C2_state_shared_and_hold_spacing (step : ℚ) (r : ℕ) (mix : ℚ)
    (hr : 1 ≤ r) (xs ys : List ℚ) :
    (processChannel step r mix initCrusher (xs ++ ys) =
      ((processChannel step r mix
          (processChannel step r mix initCrusher xs).1 ys).1,
       (processChannel step r mix initCrusher xs).2 ++
         (processChannel step r mix
           (processChannel step r mix initCrusher xs).1 ys).2)) ∧
    holdsEvery r (heldTrace step r mix initCrusher (xs ++ ys)) ∧
    (processChannel step r 1 initCrusher (xs ++ ys)).2 =
      heldTrace step r 1 initCrusher (xs ++ ys) := by
  refine ⟨processChannel_append step r mix xs ys initCrusher, ?_,
    output_eq_held_of_wet step r (xs ++ ys) initCrusher⟩
  intro i j hi hj hij
  have hlen := heldTrace_length step r mix (xs ++ ys) initCrusher
  have hchange : ∀ m, changeIdx (heldTrace step r mix initCrusher (xs ++ ys))
      m → (m + 1) % r = 0 := by
    intro m hm
    obtain ⟨hm0, hmlen, hmne⟩ := hm
    rw [hlen] at hmlen
    by_contra hne
    have hs := heldTrace_stable step r mix hr (xs ++ ys) initCrusher m
      (by simpa [initCrusher] using hr) hmlen
      (by simpa [initCrusher] using hne)
    rw [if_neg (by omega)] at hs
    exact hmne hs
  have hdi : r ∣ i + 1 := Nat.dvd_of_mod_eq_zero (hchange i hi)
  have hdj : r ∣ j + 1 := Nat.dvd_of_mod_eq_zero (hchange j hj)
  have hsub : r ∣ (j + 1) - (i + 1) := Nat.dvd_sub' hdj hdi
  have hji : (j + 1) - (i + 1) = j - i := by omega
  rw [hji] at hsub
  exact Nat.le_of_dvd (by omega) hsub

theorem C2_state_shared_and_hold_spacing_witness :
    holdsEvery 2 (heldTrace 1 2 1 initCrusher ([1/2] ++ [-1/2])) :=
  (C2_state_shared_and_hold_spacing 1 2 1 (by norm_num)
    [1/2] [-1/2]).2.1

/-- C2 counterexample, refuting the claim as stated: with `reduction = 2`,
`bitDepth = 1`, `mix = 1`, feeding three consecutive one-frame STEREO blocks
(-1/2, 1/2, -1/2 on both channels) makes channel 1's output change at two
consecutive samples of that channel — the decimation state is shared across
channels, so the per-channel hold guarantee fails. -/
theorem C2_counterexample :
    c2RunOutputs = [-1, 0, -1] ∧ ¬ holdsEvery 2 c2RunOutputs := by
  have hout : c2RunOutputs = [-1, 0, -1] := by
    norm_num [c2RunOutputs, process, processChannels, processChannel,
      processSample, channelSlots, stepOf, quantize, clampSample, initCrusher]
  refine ⟨hout, ?_⟩
  rw [hout]
  intro h
  have h12 := h 1 2 (by norm_num [changeIdx]) (by norm_num [changeIdx])
    (by omega)
  omega

/-- C3 counterexample, refuting the claim as stated: at `bitDepth = 1` the
quantization step computed by the source, `step = 2 / 2^1`, equals 1,
not 2. -/
theorem C3_counterexample : stepOf 1 = 1 ∧ stepOf 1 ≠ 2 := by
  norm_num [stepOf]

/-- C3 (amended).  When `bitDepth = 1` the quantization step equals 1
(`2 / levels` with `levels = 2`), and every sample in `[-1, 1)` quantizes to
one of the two levels -1 and 0; with `reductionFactor = 4`, `bitDepth = 1`
and `mix = 1`, processing the input ramp from -1 towards 1 over 8 uniform
samples yields the output `[0,0,0,-1,-1,-1,-1,0]`, which holds exactly 2
distinct values, each held for exactly 4 of the 8 samples. -/
theorem C3_two_level_quantization_and_scenario :
    stepOf 1 = 1 ∧
    (∀ x : ℚ, -1 ≤ x → x < 1 →
      clampSample (quantize (stepOf 1) x) = -1 ∨
      clampSample (quantize (stepOf 1) x) = 0) ∧
    c3Out = [0, 0, 0, -1, -1, -1, -1, 0] ∧
    c3Out.dedup = [-1, 0] ∧
    c3Out.count 0 = 4 ∧ c3Out.count (-1) = 4 := by
  have hout : c3Out = [0, 0, 0, -1, -1, -1, -1, 0] := by
    norm_num [c3Out, process, processChannels, processChannel, processSample,
      channelSlots, ramp8, stepOf, quantize, clampSample, initCrusher]
  refine ⟨by norm_num [stepOf], ?_, hout, ?_, ?_, ?_⟩
  · intro x h1 h2
    have hstep : stepOf 1 = 1 := by norm_num [stepOf]
    rw [hstep]
    have hm0 : 0 ≤ ⌊x + 1⌋ := Int.floor_nonneg.mpr (by linarith)
    have hm2 : ⌊x + 1⌋ < 2 := Int.floor_lt.mpr (by push_cast; linarith)
    unfold quantize clampSample
    have hdiv : ⌊(x + 1) / 1⌋ = ⌊x + 1⌋ := by norm_num
    rw [hdiv]
    rcases (by omega : ⌊x + 1⌋ = 0 ∨ ⌊x + 1⌋ = 1) with h | h
    · left; rw [h]; norm_num
    · right; rw [h]; norm_num
  · rw [hout]; decide
  · rw [hout]; decide
  · rw [hout]; decide

theorem C3_two_level_quantization_and_scenario_witness :
    clampSample (quantize (stepOf 1) (-1/2)) = -1 ∨
    clampSample (quantize (stepOf 1) (-1/2)) = 0 :=
  C3_two_level_quantization_and_scenario.2.1 (-1/2) (by norm_num)
    (by norm_num)

theorem processChannels_missing (step : ℚ) (red : ℕ) (mix : ℚ)
    (blockSize : ℕ) :
    ∀ (slots : List (Option (List ℚ))) (s : CrusherState) (i : ℕ),
      slots.get? i = some none →
      ((processChannels step red mix blockSize s slots).2).get? i =
        some (List.replicate blockSize 0) := by
  intro slots
  induction slots with
  | nil => intro s i h; simp at h
  | cons o rest ih =>
    intro s i h
    match i with
    | 0 =>
      simp only [List.get?_cons_zero, Option.some_inj] at h
      subst h
      simp [processChannels]
    | k + 1 =>
      simp only [List.get?_cons_succ] at h
      match o with
      | none => simpa [processChannels] using ih _ k h
      | some ch => simpa [processChannels] using ih _ k h

/-- C8.  The render-path `process` function is a total function — no
execution path raises an error — and: with an absent input, or an input
carrying no channels, it leaves the state untouched and returns the
host-zeroed (silent) output block; and a missing input channel yields a
zero-filled (silent) output block for that channel. -/
theorem C8_process_never_fails_missing_input_is_silence (bd : ℕ)
    (rp mix : ℚ) (numOut blockSize : ℕ) (s : CrusherState) :
    process bd rp mix none numOut blockSize s =
      (s, List.replicate numOut (List.replicate blockSize 0)) ∧
    process bd rp mix (some []) numOut blockSize s =
      (s, List.replicate numOut (List.replicate blockSize 0)) ∧
    (∀ (chans : List (List ℚ)) (i : ℕ), i < numOut → chans.get? i = none →
      (process bd rp mix (some chans) numOut blockSize s).2.getD i [] =
        List.replicate blockSize 0) := by
  refine ⟨rfl, rfl, ?_⟩
  intro chans i hi hnone
  by_cases hc : chans.length = 0
  · simp [process, hc, List.getD_eq_getElem?_getD, List.getElem?_replicate, hi]
  · have hslot : (channelSlots chans numOut).get? i = some none := by
      unfold channelSlots
      rw [List.get?_map, List.get?_range hi, Option.map_some', hnone]
    have := processChannels_missing (stepOf bd) (Int.toNat ⌊rp⌋) mix
      blockSize (channelSlots chans numOut) s i hslot
    simp only [process, if_neg hc]
    rw [List.getD_eq_get?, this]
    rfl

theorem C8_process_never_fails_missing_input_is_silence_witness :
    (process 1 1 1 (some [[1/2]]) 2 2 initCrusher).2.getD 1 [] =
      List.replicate 2 0 :=
  (C8_process_never_fails_missing_input_is_silence 1 1 1 2 2
    initCrusher).2.2 [[1/2]] 1 (by norm_num) rfl

/-- C9 counterexample, refuting the claim as stated: with `bitDepth = 1`
(`levels = 2`), `mix = 1` and `reduction = 1`, the input sample 1 produces
the output 1, which is on none of the `levels = 2` uniform grid points
`k * step - 1`, `k < 2`; the attainable values form `levels + 1` grid
points. -/
theorem C9_counterexample :
    (processChannel (stepOf 1) 1 1 initCrusher [1]).2 = [1] ∧
    (1 : ℚ) ≠ (0 : ℕ) * stepOf 1 - 1 ∧
    (1 : ℚ) ≠ (1 : ℕ) * stepOf 1 - 1 := by
  norm_num [processChannel, processSample, stepOf, quantize, clampSample,
    initCrusher]

theorem clamp_quantize_onGrid (bd : ℕ) (hbd : 1 ≤ bd) (x : ℚ)
    (hx1 : -1 ≤ x) (hx2 : x ≤ 1) :
    onGrid bd (clampSample (quantize (stepOf bd) x)) := by
  have hstep : (0 : ℚ) < stepOf bd := by
    unfold stepOf; positivity
  set m := ⌊(x + 1) / stepOf bd⌋ with hm
  have hm0 : 0 ≤ m :=
    Int.floor_nonneg.mpr (div_nonneg (by linarith) (le_of_lt hstep))
  have hval : (x + 1) / stepOf bd ≤ (2 : ℚ) ^ bd := by
    rw [div_le_iff₀ hstep]
    have h2 : (2 : ℚ) ^ bd * stepOf bd = 2 := by
      unfold stepOf
      field_simp
    rw [h2]
    linarith
  have hmle : m ≤ (2 : ℤ) ^ bd := by
    have := Int.floor_le_floor hval
    rw [← hm] at this
    calc m ≤ ⌊((2:ℚ) ^ bd)⌋ := this
      _ = (2:ℤ) ^ bd := by
          rw [show ((2:ℚ) ^ bd) = (((2:ℤ) ^ bd : ℤ) : ℚ) by push_cast; ring]
          exact Int.floor_intCast _
  have hraw1 : -1 ≤ (m : ℚ) * stepOf bd - 1 := by
    have : (0 : ℚ) ≤ (m : ℚ) * stepOf bd := by
      apply mul_nonneg _ (le_of_lt hstep)
      exact_mod_cast hm0
    linarith
  have hraw2 : (m : ℚ) * stepOf bd - 1 ≤ 1 := by
    have hcast : (m : ℚ) ≤ (2 : ℚ) ^ bd := by exact_mod_cast hmle
    have : (m : ℚ) * stepOf bd ≤ (2 : ℚ) ^ bd * stepOf bd :=
      mul_le_mul_of_nonneg_right hcast (le_of_lt hstep)
    have h2 : (2 : ℚ) ^ bd * stepOf bd = 2 := by
      unfold stepOf
      field_simp
    linarith
  have hclamp : clampSample (quantize (stepOf bd) x) =
      (m : ℚ) * stepOf bd - 1 := by
    unfold clampSample quantize
    rw [← hm]
    rw [min_eq_right hraw2, max_eq_right hraw1]
  rw [hclamp]
  refine ⟨m.toNat, ?_, ?_⟩
  · have : ((2:ℤ) ^ bd) = ((2 ^ bd : ℕ) : ℤ) := by push_cast; ring
    omega
  · congr 1
    rw [show ((m.toNat : ℕ) : ℚ) = ((m.toNat : ℤ) : ℚ) by push_cast; ring]
    rw [Int.toNat_of_nonneg hm0]

theorem initCrusher_onGrid (bd : ℕ) (hbd : 1 ≤ bd) :
    onGrid bd initCrusher.lastSample := by
  refine ⟨2 ^ (bd - 1), ?_, ?_⟩
  · exact Nat.pow_le_pow_right (by norm_num) (by omega)
  · show (0 : ℚ) = ((2 ^ (bd - 1) : ℕ) : ℚ) * stepOf bd - 1
    have hb : (2 : ℚ) ^ bd = ((2 ^ (bd - 1) : ℕ) : ℚ) * 2 := by
      push_cast
      rw [← pow_succ]
      congr 1
      omega
    have hnz : ((2 ^ (bd - 1) : ℕ) : ℚ) ≠ 0 := by positivity
    unfold stepOf
    rw [hb]
    field_simp

theorem heldTrace_onGrid (bd r : ℕ) (mix : ℚ) (hbd : 1 ≤ bd) :
    ∀ (xs : List ℚ) (s : CrusherState),
      (∀ x ∈ xs, -1 ≤ x ∧ x ≤ 1) → onGrid bd s.lastSample →
      ∀ y ∈ heldTrace (stepOf bd) r mix s xs, onGrid bd y := by
  intro xs
  induction xs with
  | nil => intro s _ _ y hy; simp [heldTrace] at hy
  | cons x xs ih =>
    intro s hx hs y hy
    simp only [heldTrace, List.mem_cons] at hy
    have hnext : onGrid bd (processSample (stepOf bd) r mix s x).1.lastSample := by
      unfold processSample
      by_cases h : r ≤ s.sampleCounter + 1
      · simp only [h, if_true]
        exact clamp_quantize_onGrid bd hbd x (hx x (by simp)).1
          (hx x (by simp)).2
      · simpa [h] using hs
    rcases hy with hy | hy
    · rw [hy]; exact hnext
    · exact ih _ (fun z hz => hx z (by simp [hz])) hnext y hy

/-- C9 (amended).  For every `bitDepth` in `[1,16]` with
`levels = 2^bitDepth`, every output value of the fully-wet (`mix = 1`)
processor lies on one of the `levels + 1` uniform grid points
`k * step - 1`, `0 ≤ k ≤ levels`, within `[-1, 1]`; the claim's count of
exactly `levels` grid points is off by one, since the input 1 reaches the
top point `levels * step - 1 = 1`. -/
theorem C9_outputs_on_quantization_grid (bd : ℕ) (hbd1 : 1 ≤ bd)
    (hbd16 : bd ≤ 16) (r : ℕ) (xs : List ℚ)
    (hx : ∀ x ∈ xs, -1 ≤ x ∧ x ≤ 1) :
    ∀ y ∈ (processChannel (stepOf bd) r 1 initCrusher xs).2, onGrid bd y := by
  intro y hy
  rw [output_eq_held_of_wet] at hy
  exact heldTrace_onGrid bd r 1 hbd1 xs initCrusher hx
    (initCrusher_onGrid bd hbd1) y hy

theorem C9_outputs_on_quantization_grid_witness : onGrid 1 1 := by
  refine C9_outputs_on_quantization_grid 1 (by norm_num) (by norm_num) 1 [1]
    (by intro x hx; rw [List.mem_singleton] at hx; rw [hx]; norm_num) 1 ?_
  norm_num [processChannel, processSample, stepOf, quantize, clampSample,
    initCrusher]

theorem triggerPad_fst (pad : ℕ) (e : Engine) : (triggerPad pad e).1 = e := by
  unfold triggerPad
  by_cases h : e.hasCtx && e.hasNode
  · cases hs : e.samples pad <;> simp [h, hs]
  · simp [h]

theorem runOp_preserves_node_init (decode : Bytes → Option Sample)
    (e : Engine) (op : EngineOp)
    (h : e.hasNode = true → e.isInitialized = true) :
    (runOp decode e op).hasNode = true →
      (runOp decode e op).isInitialized = true := by
  cases op with
  | initOp env =>
    simp only [runOp, init]
    by_cases hi : e.isInitialized = true
    · simp [hi]
    · cases env <;> simp [hi] <;>
        exact (by
          cases hn : e.hasNode
          · rfl
          · exact absurd (h hn) hi)
  | loadOp pad bytes =>
    simp only [runOp, loadSample]
    by_cases hc : e.hasCtx = false
    · simpa [hc] using h
    · cases hd : decode bytes <;> simpa [hc, hd] using h
  | trigOp pad =>
    simpa [runOp, triggerPad_fst] using h
  | setOp p =>
    simpa [runOp, setState] using h

theorem run_node_imp_init (decode : Bytes → Option Sample)
    (ops : List EngineOp) :
    (run decode ops).hasNode = true →
      (run decode ops).isInitialized = true := by
  have key : ∀ (l : List EngineOp) (e : Engine),
      (e.hasNode = true → e.isInitialized = true) →
      ((l.foldl (runOp decode) e).hasNode = true →
        (l.foldl (runOp decode) e).isInitialized = true) := by
    intro l
    induction l with
    | nil => intro e he; simpa using he
    | cons op rest ih =>
      intro e he
      simp only [List.foldl_cons]
      exact ih _ (runOp_preserves_node_init decode e op he)
  exact key ops freshEngine (by intro hn; simp [freshEngine] at hn)

/-- C7.  For every pad slot and every engine state reachable through the
control API, `triggerPad` on a slot with no bound sample, or on an
uninitialized engine, creates no voice, raises no error (the embedded
function is total), and leaves all engine state — parameter state and sample
bindings — unchanged. -/
theorem C7_trigger_unbound_or_uninitialized_is_noop
    (decode : Bytes → Option Sample) (ops : List EngineOp) (pad : ℕ)
    (h : (run decode ops).samples pad = none ∨
      (run decode ops).isInitialized = false) :
    (triggerPad pad (run decode ops)).2 = none ∧
    (triggerPad pad (run decode ops)).1 = run decode ops := by
  refine ⟨?_, triggerPad_fst pad (run decode ops)⟩
  unfold triggerPad
  by_cases hcn : (run decode ops).hasCtx && (run decode ops).hasNode
  · have hnode : (run decode ops).hasNode = true :=
      (Bool.and_eq_true _ _ |>.mp hcn).2
    have hinit := run_node_imp_init decode ops hnode
    rcases h with hs | hi
    · simp [hcn, hs]
    · rw [hinit] at hi
      exact absurd hi (by simp)
  · simp [hcn]

theorem C7_trigger_unbound_or_uninitialized_is_noop_witness :
    (triggerPad 0 (run decode0 [])).2 = none ∧
    (triggerPad 0 (run decode0 [])).1 = run decode0 [] :=
  C7_trigger_unbound_or_uninitialized_is_noop decode0 [] 0 (Or.inr rfl)

/-- C5 counterexample, refuting the claim as stated: after an `init` that
failed at worklet-module loading — a state other than Ready, reached through
the control API — `loadSample` still has an effect: the `AudioContext`
exists, so a valid byte string is decoded and bound to the pad slot even
though the engine is uninitialized. -/
theorem C5_counterexample :
    moduleFailEngine.isInitialized = false ∧
    (loadSample decode0 0 [1] moduleFailEngine).2 = none ∧
    (loadSample decode0 0 [1] moduleFailEngine).1.samples 0 = some [1] ∧
    moduleFailEngine.samples 0 = none :=
  ⟨rfl, rfl, rfl, rfl⟩

/-- C5 (amended).  If `init` fails because a platform call fails, the error
is surfaced to the caller and the engine remains uninitialized.  In every
state missing the context or the worklet node — in particular every state
other than Ready — `triggerPad` has no effect; `loadSample` has no effect
whenever the `AudioContext` is missing, but it is guarded by the context
alone, not by the Ready state (see the counterexample). -/
theorem C5_init_failure_surfaced_and_guards :
    (∀ (env : InitEnv) (e : Engine) (err : EngineError),
      (init env e).2 = some err →
      err = EngineError.initFailure ∧ (init env e).1.isInitialized = false) ∧
    (∀ (pad : ℕ) (e : Engine), e.hasCtx = false ∨ e.hasNode = false →
      (triggerPad pad e).2 = none ∧ (triggerPad pad e).1 = e) ∧
    (∀ (decode : Bytes → Option Sample) (pad : ℕ) (bytes : Bytes)
      (e : Engine), e.hasCtx = false →
      (loadSample decode pad bytes e).2 = some EngineError.notInitialized ∧
      (loadSample decode pad bytes e).1 = e) := by
  refine ⟨?_, ?_, ?_⟩
  · intro env e err herr
    unfold init at herr ⊢
    by_cases hi : e.isInitialized = true
    · simp [hi] at herr
    · cases env <;> simp [hi] at herr ⊢ <;> simp [← herr]
  · intro pad e he
    refine ⟨?_, triggerPad_fst pad e⟩
    have hcn : (e.hasCtx && e.hasNode) = false := by
      rcases he with h | h <;> simp [h]
    simp [triggerPad, hcn]
  · intro decode pad bytes e he
    simp [loadSample, he]

theorem C5_init_failure_surfaced_and_guards_witness :
    EngineError.initFailure = EngineError.initFailure ∧
    (init InitEnv.moduleFail freshEngine).1.isInitialized = false :=
  C5_init_failure_surfaced_and_guards.1 InitEnv.moduleFail freshEngine
    EngineError.initFailure rfl

/-- C6.  On an engine whose `AudioContext` exists, `loadSample` fails with a
decode error exactly when the bytes are not valid audio data; on failure
every slot's previous binding is left untouched; on success the decoded
sample replaces any existing binding of that slot and no other slot changes;
and after two sequential `loadSample` calls to the same slot the binding
reflects only the second call's sample. -/
theorem C6_loadSample_decode_exact (decode : Bytes → Option Sample)
    (e : Engine) (pad : ℕ) (bytes : Bytes) (hctx : e.hasCtx = true) :
    ((loadSample decode pad bytes e).2 = some EngineError.decodeFailure ↔
      decode bytes = none) ∧
    (decode bytes = none → (loadSample decode pad bytes e).1 = e) ∧
    (∀ buf, decode bytes = some buf →
      (loadSample decode pad bytes e).2 = none ∧
      (loadSample decode pad bytes e).1.samples pad = some buf ∧
      ∀ q, q ≠ pad →
        (loadSample decode pad bytes e).1.samples q = e.samples q) ∧
    (∀ (bytes2 : Bytes) (buf2 : Sample), decode bytes2 = some buf2 →
      (loadSample decode pad bytes2
        (loadSample decode pad bytes e).1).1.samples pad = some buf2) := by
  have hc : ¬ e.hasCtx = false := by simp [hctx]
  refine ⟨?_, ?_, ?_, ?_⟩
  · cases hd : decode bytes <;> simp [loadSample, hc, hd]
  · intro hd; simp [loadSample, hc, hd]
  · intro buf hd
    refine ⟨by simp [loadSample, hc, hd], by simp [loadSample, hc, hd,
      samplesSet], ?_⟩
    intro q hq
    simp [loadSample, hc, hd, samplesSet, hq]
  · intro bytes2 buf2 hd2
    cases hd : decode bytes <;>
      simp [loadSample, hc, hd, hd2, samplesSet]

theorem C6_loadSample_decode_exact_witness :
    (loadSample decode0 3 [2]
      (loadSample decode0 3 [1] readyEngine).1).1.samples 3 = some [2] :=
  (C6_loadSample_decode_exact decode0 readyEngine 3 [1] rfl).2.2.2 [2] [2]
    rfl

/-- C4 counterexample, refuting the claim as stated: `setState` performs no
clamping, so a `bitDepth` update of 100 from the control context is stored
as 100, outside the valid range `[1, 16]`. -/
theorem C4_counterexample :
    (setState overLimit freshEngine).params.bitDepth = 100 ∧
    ¬ ((1 : ℚ) ≤ (setState overLimit freshEngine).params.bitDepth ∧
       (setState overLimit freshEngine).params.bitDepth ≤ 16) := by
  have h : (setState overLimit freshEngine).params.bitDepth = 100 := rfl
  exact ⟨h, by rw [h]; norm_num⟩

/-- C4 (amended).  `setState` stores each supplied parameter value verbatim,
without clamping — the engine's stored state can lie outside the documented
ranges.  Range limits exist only in the worklet's AudioParam descriptors:
`bitDepth` in `[1, 16]`, `reduction` in `[1, 32]`, `mix` in `[0, 1]`
(`masterVolume` has no descriptor). -/
theorem C4_setState_stores_verbatim (e : Engine) (p : PartialParams) :
    (setState p e).params.masterVolume =
      p.masterVolume.getD e.params.masterVolume ∧
    (setState p e).params.bitDepth = p.bitDepth.getD e.params.bitDepth ∧
    (setState p e).params.reduction = p.reduction.getD e.params.reduction ∧
    (setState p e).params.mix = p.mix.getD e.params.mix ∧
    bitDepthParamDesc = ⟨12, 1, 16⟩ ∧
    reductionParamDesc = ⟨1, 1, 32⟩ ∧
    mixParamDesc = ⟨1, 0, 1⟩ :=
  ⟨rfl, rfl, rfl, rfl, rfl, rfl, rfl⟩

/-- C10.  For every `setState` call with a partial state, every parameter
field not named in the argument keeps its previous value: the stored state,
subsequent `getState` snapshots, and the ramp targets `applyState` schedules
on the audio nodes for those fields are unchanged by the call. -/
theorem C10_absent_fields_keep_value (e : Engine) (p : PartialParams) :
    (p.masterVolume = none →
      (getState (setState p e)).masterVolume = (getState e).masterVolume ∧
      ∀ t, applyState (setState p e) = some t →
        t.masterVolume = (getState e).masterVolume) ∧
    (p.bitDepth = none →
      (getState (setState p e)).bitDepth = (getState e).bitDepth ∧
      ∀ t, applyState (setState p e) = some t →
        t.bitDepth = (getState e).bitDepth) ∧
    (p.reduction = none →
      (getState (setState p e)).reduction = (getState e).reduction ∧
      ∀ t, applyState (setState p e) = some t →
        t.reduction = (getState e).reduction) ∧
    (p.mix = none →
      (getState (setState p e)).mix = (getState e).mix ∧
      ∀ t, applyState (setState p e) = some t →
        t.mix = (getState e).mix) := by
  refine ⟨?_, ?_, ?_, ?_⟩ <;> intro h <;>
    refine ⟨by simp [getState, setState, h], ?_⟩ <;> intro t ht <;>
    simp only [applyState] at ht <;> split at ht <;>
    first
      | (injection ht with ht2; rw [← ht2]; simp [getState, setState, h])
      | exact absurd ht (by simp)

theorem C10_absent_fields_keep_value_witness :
    (getState (setState bitOnly readyEngine)).masterVolume =
      (getState readyEngine).masterVolume :=
  ((C10_absent_fields_keep_value readyEngine bitOnly).1 rfl).1

end SP1200
